import Mathlib

/-!
Shallow embedding of the core logic of the tarball-installer repository
(`src/main_window.py`): the main-binary identification heuristic of
`InstallerThread` (`identify_main_binary`, `parse_desktop_file`) and the
bookkeeping operations of `InstallationTracker` (`add_installation`,
`scan_existing_installations`, `cleanup_orphaned_markers`).

Python strings are modelled as Lean `String`s; the handful of Python string
operations the code uses (`strip`, `split`, `in`, `lower`, `endswith`,
`os.path.basename`) are defined below over the underlying character lists so
that everything computes by structural recursion.
-/

namespace TarballInstaller

/-- Python whitespace characters, as recognised by `str.strip` / `str.split`. -/
def isPyWs (c : Char) : Bool :=
  c == ' ' || c == '\t' || c == '\n' || c == '\r' || c == '\x0b' || c == '\x0c'

/-- Test whether the character list `p` starts the character list `q`. -/
def chPre : List Char → List Char → Bool
  | [], _ => true
  | _ :: _, [] => false
  | a :: as, b :: bs => a == b && chPre as bs

/-- Test whether `sub` occurs as a contiguous run inside the second list
(the Python membership test `sub in s`). -/
def chSub (sub : List Char) : List Char → Bool
  | [] => sub.isEmpty
  | b :: t => chPre sub (b :: t) || chSub sub t

/-- Python `sub in s` on strings. -/
def pyIn (sub s : String) : Bool := chSub sub.data s.data

/-- Python `c in s` for a single character. -/
def hasChar (s : String) (c : Char) : Bool := s.data.any (fun a => a == c)

/-- Python `str.lower` (ASCII case folding, which is all this program needs). -/
def pyLower (s : String) : String := ⟨s.data.map Char.toLower⟩

/-- Python `str.strip()` with no arguments: drop whitespace at both ends. -/
def stripWs (cs : List Char) : List Char :=
  ((cs.dropWhile isPyWs).reverse.dropWhile isPyWs).reverse

/-- Python `str.endswith(suf)`. -/
def pyEndsWith (s suf : String) : Bool := chPre suf.data.reverse s.data.reverse

/-- Model of `os.path.basename`: everything after the last `/`. -/
def pyBasename (s : String) : String :=
  ⟨(s.data.reverse.takeWhile (fun a => !(a == '/'))).reverse⟩

/-- Python `str.split(c)` for a single separator character: splits at every
occurrence, keeping empty pieces (so `"".split(c) = [""]`). -/
def splitChar (c : Char) : List Char → List (List Char)
  | [] => [[]]
  | a :: as =>
    if a == c then [] :: splitChar c as
    else
      match splitChar c as with
      | [] => [[a]]
      | g :: gs => (a :: g) :: gs

/-- Split at the first occurrence of `c` (Python `str.split(c, 1)` when `c`
occurs): returns the pieces before and after, or `none` when `c` is absent. -/
def splitFirst (c : Char) : List Char → Option (List Char × List Char)
  | [] => none
  | a :: as =>
    if a == c then some ([], as)
    else (splitFirst c as).map (fun p => (a :: p.1, p.2))

/-- Helper for `pySplitWs`: accumulates the current (reversed) word. -/
def wsSplitAux : List Char → List Char → List String
  | [], acc => if acc.isEmpty then [] else [⟨acc.reverse⟩]
  | c :: cs, acc =>
    if isPyWs c then
      if acc.isEmpty then wsSplitAux cs [] else (⟨acc.reverse⟩ : String) :: wsSplitAux cs []
    else wsSplitAux cs (c :: acc)

/-- Python `str.split()` with no arguments: split on whitespace runs,
dropping empty pieces. -/
def pySplitWs (s : String) : List String := wsSplitAux s.data []

/-!  ## Desktop-file parsing (`InstallerThread.parse_desktop_file`)  -/

/-- The dictionary built by `parse_desktop_file`, after the fixed projection
of the six recognised keys. -/
structure DesktopInfo where
  name : String
  comment : String
  exec : String
  icon : String
  categories : List String
  version : String
deriving DecidableEq, Repr

/-- Python dict assignment `d[k] = v` on an insertion-ordered association
list: overwrite in place when the key exists, append otherwise. -/
def sset : List (String × String) → String → String → List (String × String)
  | [], k, v => [(k, v)]
  | (k0, v0) :: rest, k, v =>
    if k0 = k then (k0, v) :: rest else (k0, v0) :: sset rest k v

/-- Python `d.get(k, dflt)` on an association list. -/
def sget (d : List (String × String)) (k dflt : String) : String :=
  match d.find? (fun p => p.1 == k) with
  | some p => p.2
  | none => dflt

/-- One line of the `parse_desktop_file` scan: the state is
(inside `[Desktop Entry]`?, keys recorded so far). -/
def desktop_scan_step (st : Bool × List (String × String)) (rawLine : List Char) :
    Bool × List (String × String) :=
  let l := stripWs rawLine
  if l = "[Desktop Entry]".data then (true, st.2)
  else if (match l with | [] => false | c :: _ => c == '[') &&
          ((l.getLast?).elim false (fun c => c == ']')) then (false, st.2)
  else if st.1 && l.contains '=' then
    match splitFirst '=' l with
    | some (k, v) => (st.1, sset st.2 ⟨k⟩ ⟨v⟩)
    | none => st
  else st

/-- Body of `parse_desktop_file` on readable file content: split into lines,
scan for `key=value` pairs inside the `[Desktop Entry]` section, then project
the six recognised keys with their defaults. -/
def parse_desktop_content (content : String) : DesktopInfo :=
  let lines := splitChar '\n' content.data
  let r := (lines.foldl desktop_scan_step (false, [])).2
  { name := sget r "Name" "Unknown"
    comment := sget r "Comment" ""
    exec := sget r "Exec" ""
    icon := sget r "Icon" ""
    categories := (splitChar ';' (sget r "Categories" "").data).map (fun g => (⟨g⟩ : String))
    version := sget r "Version" "1.0" }

/-- A desktop file on disk is its content when readable, `none` when any read
or decode error occurs (the Python code catches every exception and returns
`{}`, modelled here as `none`). -/
def parse_desktop_file : Option String → Option DesktopInfo
  | some content => some (parse_desktop_content content)
  | none => none

/-- Read the `exec` entry of a parsed desktop file: the empty string both for an unreadable
file (empty dict) and for a missing `Exec` key. -/
def desk_exec (d : Option String) : String :=
  match parse_desktop_file d with
  | some i => i.exec
  | none => ""

/-!  ## Main-binary scoring (`InstallerThread.identify_main_binary`)  -/

/-- The `main_names` list of the scoring loop. -/
def mainNames : List String := ["app", "main", "run", "start", "launch"]

/-- The per-candidate score computed by the scoring loop of
`identify_main_binary`, translated statement by statement:
`bin_name = os.path.basename(binary)`, `bin_path = binary.lower()`, then the
four sequential `score +=` / `score -=` updates. -/
def scoreOf (binary : String) : Int :=
  let binName := pyBasename binary
  let binPath := pyLower binary
  let score : Int := 0
  let score := if pyIn "bin" binPath then score + 10 else score
  let score :=
    if !(hasChar binName '.') then score + 8
    else if pyEndsWith binName ".sh" || pyEndsWith binName ".py" || pyEndsWith binName ".pl" then
      score + 3
    else score
  let score := if mainNames.any (fun n => pyIn n (pyLower binName)) then score + 5 else score
  let score :=
    if pyIn "uninstall" (pyLower binName) || pyIn "remove" (pyLower binName) then score - 3
    else score
  score

/-- Stable descending insertion: `x` is placed before the first element whose
score is not strictly greater, so among equal scores earlier-inserted elements
stay first.  Extensionally equal to the stable descending-by-score
list sort the Python code performs. -/
def insDesc (x : String × Int) : List (String × Int) → List (String × Int)
  | [] => [x]
  | y :: ys => if x.2 < y.2 then y :: insDesc x ys else x :: y :: ys

/-- Stable sort by descending score. -/
def sortDesc : List (String × Int) → List (String × Int)
  | [] => []
  | x :: xs => insDesc x (sortDesc xs)

/-- The scored candidate list built by the scoring loop (path, score pairs). -/
def scored_list (binaries : List String) : List (String × Int) :=
  binaries.map (fun b => (b, scoreOf b))

/-- The selection `scored_binaries[0][0] if scored_binaries else binaries[0]`
after the descending stable sort. -/
def selectByScore (binaries : List String) : Option String :=
  match sortDesc (scored_list binaries) with
  | [] => binaries.head?
  | p :: _ => some p.1

/-- The token extraction: the first whitespace-split piece when the value
contains a space character, otherwise the whole value; `none` models the
uncaught IndexError raised when the value contains a space but splits to
nothing (whitespace-only value). -/
def exec_token (execCmd : String) : Option String :=
  if hasChar execCmd ' ' then (pySplitWs execCmd).head? else some execCmd

/-- The selection policy of `identify_main_binary`.  Desktop files are given
as `Option String` contents (`none` = unreadable).  `Except.error ()` models
the uncaught `IndexError` of the space-but-no-token corner; otherwise the
result is `Except.ok` of the optional chosen path. -/
def identify_main_binary (binaries : List String) (desktop_files : List (Option String)) :
    Except Unit (Option String) :=
  if binaries = [] then Except.ok none
  else
    let deskStep : Except Unit (Option String) :=
      match desktop_files with
      | [] => Except.ok none
      | d :: _ =>
        let e := desk_exec d
        if e = "" then Except.ok none
        else
          match exec_token e with
          | none => Except.error ()
          | some t =>
            Except.ok (binaries.find? (fun b => pyBasename b == pyBasename t))
    match deskStep with
    | Except.error u => Except.error u
    | Except.ok (some b) => Except.ok (some b)
    | Except.ok none => Except.ok (selectByScore binaries)

/-!  ## Installation tracker (`InstallationTracker`)

Registry records and marker contents are Python dicts; the values this
program stores in them are strings, booleans, lists of path strings, or
`None`, modelled by `PyVal`.  A dict is an insertion-ordered association
list with unique keys, written to via `dset` (overwrite in place or append)
and read via `dget` (`d.get(k)`, defaulting to `None`) / `dgetD`
(`d.get(k, dflt)`).
-/

/-- A Python value as stored in the records and markers of this program. -/
inductive PyVal where
  | vnone
  | vstr (s : String)
  | vbool (b : Bool)
  | vint (n : Int)
  | vlist (xs : List String)
deriving DecidableEq, Repr

/-- The `__version__` constant of the source file. -/
def VERSION : String := "0.23.6"

/-- A record / marker dict. -/
abbrev Dict := List (String × PyVal)

/-- Python `d.get(k, dflt)`. -/
def dgetD (d : Dict) (k : String) (dflt : PyVal) : PyVal :=
  match d.find? (fun p => p.1 == k) with
  | some p => p.2
  | none => dflt

/-- Python `d.get(k)`: absent keys read as `None`. -/
def dget (d : Dict) (k : String) : PyVal := dgetD d k PyVal.vnone

/-- Python dict assignment `d[k] = v`: overwrite in place, else append. -/
def dset : Dict → String → PyVal → Dict
  | [], k, v => [(k, v)]
  | (k0, v0) :: rest, k, v =>
    if k0 = k then (k0, v) :: rest else (k0, v0) :: dset rest k v

/-- Python `inst.update(data)`: assign every entry of `data` in order. -/
def dictUpdate (inst data : Dict) : Dict :=
  data.foldl (fun d p => dset d p.1 p.2) inst

/-- Does the dict carry key `k`? -/
def hasKey (d : Dict) (k : String) : Bool := d.any (fun p => p.1 == k)

/-- Test whether some registry record carries the given `app_id` value — the
tracked-test used by both `scan_existing_installations` and
`cleanup_orphaned_markers`. -/
def tracked (installations : List Dict) (appId : PyVal) : Bool :=
  installations.any (fun inst => dget inst "app_id" == appId)

/-- Model of `InstallationTracker.add_installation`: update the first record with a
matching `app_id` in place and stop, otherwise append the new record. -/
def add_installation : List Dict → Dict → List Dict
  | [], data => [data]
  | inst :: rest, data =>
    if dget inst "app_id" = dget data "app_id" then dictUpdate inst data :: rest
    else inst :: add_installation rest data

/-- A marker file on disk: its path and its content (`none` when reading or
JSON-decoding it raises, which the Python code swallows). -/
structure Marker where
  path : String
  content : Option Dict
deriving DecidableEq, Repr

/-- The record synthesised by `scan_existing_installations` for a
newly-discovered marker. -/
def discovered_record (markerPath : String) (md : Dict) : Dict :=
  [("app_id", dget md "app_id"),
   ("app_name", dgetD md "app_name" (PyVal.vstr "Unknown")),
   ("app_version", dgetD md "app_version" (PyVal.vstr "1.0")),
   ("install_time", dgetD md "install_time" (PyVal.vstr "")),
   ("install_type", dgetD md "install_type" (PyVal.vstr "user")),
   ("source_filename", dgetD md "tarball_source" (PyVal.vstr "")),
   ("discovered", PyVal.vbool true),
   ("marker_file", PyVal.vstr markerPath),
   ("installed_files", PyVal.vlist []),
   ("installer_version", dgetD md "installer_version" (PyVal.vstr VERSION))]

/-- Model of `InstallationTracker.scan_existing_installations`: walk the markers in
discovery order; an unreadable marker is skipped, a marker whose `app_id` is
already tracked is skipped, any other marker appends a discovered record.
(The final `save_installations` call writes a file and has no effect on the
list.) -/
def scan_existing_installations (installations : List Dict) : List Marker → List Dict
  | [] => installations
  | m :: rest =>
    match m.content with
    | none => scan_existing_installations installations rest
    | some md =>
      if tracked installations (dget md "app_id") then
        scan_existing_installations installations rest
      else
        scan_existing_installations (installations ++ [discovered_record m.path md]) rest

/-- Is this marker orphaned (readable but its `app_id` untracked)?  An
unreadable marker is skipped by the `except: continue`. -/
def isOrphan (installations : List Dict) (m : Marker) : Bool :=
  match m.content with
  | none => false
  | some md => !(tracked installations (dget md "app_id"))

/-- Outcome of `cleanup_orphaned_markers`: the record list of the tracker, the
markers still on disk, and the returned pair
`(len(orphaned_markers), removed_count)`. -/
structure CleanupResult where
  installations : List Dict
  disk : List Marker
  found : Nat
  removed : Nat
deriving DecidableEq, Repr

/-- Model of `InstallationTracker.cleanup_orphaned_markers` over a disk state: first
pass collects the orphaned markers, second pass unlinks each one (a failed
`unlink`, modelled by `delOk m.path = false`, is swallowed and the marker
stays on disk).  The method never assigns to `self.installations`, so the
record list passes through unchanged. -/
def cleanup_orphaned_markers (installations : List Dict) (markers : List Marker)
    (delOk : String → Bool) : CleanupResult :=
  let orphans := markers.filter (fun m => isOrphan installations m)
  { installations := installations
    disk := markers.filter (fun m => !(isOrphan installations m && delOk m.path))
    found := orphans.length
    removed := (orphans.filter (fun m => delOk m.path)).length }

/-!  ## Basic lemmas about the string primitives and dictionaries  -/

lemma chPre_mem {p q : List Char} (h : chPre p q = true) {a : Char} (ha : a ∈ p) : a ∈ q := by
  induction p generalizing q with
  | nil => cases ha
  | cons a0 as ih =>
    cases q with
    | nil => simp [chPre] at h
    | cons b bs =>
      simp only [chPre, Bool.and_eq_true, beq_iff_eq] at h
      rcases List.mem_cons.mp ha with rfl | ha
      · rw [h.1]; exact List.mem_cons_self _ _
      · exact List.mem_cons_of_mem _ (ih h.2 ha)

lemma chPre_exists {p q : List Char} : chPre p q = true ↔ ∃ r, q = p ++ r := by
  induction p generalizing q with
  | nil => simp [chPre]
  | cons a as ih =>
    cases q with
    | nil =>
      simp only [chPre, List.cons_append]
      constructor
      · intro h; cases h
      · rintro ⟨r, h⟩; cases h
    | cons b bs =>
      simp only [chPre, Bool.and_eq_true, beq_iff_eq, ih, List.cons_append]
      constructor
      · rintro ⟨rfl, r, rfl⟩; exact ⟨r, rfl⟩
      · rintro ⟨r, h⟩
        injection h with h1 h2
        exact ⟨h1.symm, r, h2⟩

lemma chSub_exists {s t : List Char} : chSub s t = true ↔ ∃ u v, t = u ++ (s ++ v) := by
  induction t with
  | nil =>
    simp only [chSub, List.isEmpty_iff]
    constructor
    · rintro rfl; exact ⟨[], [], rfl⟩
    · rintro ⟨u, v, h⟩
      rcases List.append_eq_nil.mp h.symm with ⟨rfl, h2⟩
      exact (List.append_eq_nil.mp h2).1
  | cons b t ih =>
    simp only [chSub, Bool.or_eq_true, chPre_exists, ih]
    constructor
    · rintro (⟨r, hr⟩ | ⟨u, v, hv⟩)
      · exact ⟨[], r, by simpa using hr⟩
      · exact ⟨b :: u, v, by simp [hv]⟩
    · rintro ⟨u, v, h⟩
      cases u with
      | nil => exact Or.inl ⟨v, by simpa using h⟩
      | cons u0 us =>
        simp only [List.cons_append] at h
        injection h with _ h2
        exact Or.inr ⟨us, v, h2⟩

lemma dot_of_endsWith {n : String} {suf : String} (hs : '.' ∈ suf.data)
    (h : pyEndsWith n suf = true) : hasChar n '.' = true := by
  have hm : '.' ∈ n.data.reverse := chPre_mem h (List.mem_reverse.mpr hs)
  simp only [hasChar, List.any_eq_true]
  exact ⟨'.', List.mem_reverse.mp hm, by simp⟩

lemma script_ext_has_dot {n : String}
    (h : (pyEndsWith n ".sh" || pyEndsWith n ".py" || pyEndsWith n ".pl") = true) :
    hasChar n '.' = true := by
  simp only [Bool.or_eq_true] at h
  rcases h with (h' | h') | h'
  · exact dot_of_endsWith (by decide) h'
  · exact dot_of_endsWith (by decide) h'
  · exact dot_of_endsWith (by decide) h'

lemma dget_nil (k : String) : dget [] k = PyVal.vnone := rfl

lemma dget_cons (k0 : String) (v0 : PyVal) (d : Dict) (k : String) :
    dget ((k0, v0) :: d) k = if k0 = k then v0 else dget d k := by
  simp only [dget, dgetD, List.find?]
  by_cases h : k0 = k
  · simp [h]
  · have hb : (k0 == k) = false := by simp [h]
    simp [hb, h]

lemma dget_dset_same (d : Dict) (k : String) (v : PyVal) : dget (dset d k v) k = v := by
  induction d with
  | nil => simp [dset, dget_cons]
  | cons p rest ih =>
    obtain ⟨k0, v0⟩ := p
    by_cases h : k0 = k
    · simp [dset, h, dget_cons]
    · simp [dset, h, dget_cons, ih]

lemma dget_dset_other (d : Dict) (k k' : String) (v : PyVal) (h : k ≠ k') :
    dget (dset d k v) k' = dget d k' := by
  induction d with
  | nil => simp [dset, dget_cons, h, dget_nil]
  | cons p rest ih =>
    obtain ⟨k0, v0⟩ := p
    by_cases hp : k0 = k
    · subst hp
      simp [dset, dget_cons, h, ih]
    · simp [dset, hp, dget_cons, ih]

lemma hasKey_cons (p : String × PyVal) (d : Dict) (k : String) :
    hasKey (p :: d) k = (p.1 == k || hasKey d k) := by
  simp [hasKey, List.any_cons]

/-!  ## Installation-tracker lemmas  -/

lemma dget_dictUpdate (inst data : Dict) (k : String) (hnd : (data.map Prod.fst).Nodup) :
    dget (dictUpdate inst data) k = if hasKey data k then dget data k else dget inst k := by
  induction data generalizing inst with
  | nil => simp [dictUpdate, hasKey]
  | cons p rest ih =>
    have hnd' : (rest.map Prod.fst).Nodup := (List.nodup_cons.mp hnd).2
    have hnotin : p.1 ∉ rest.map Prod.fst := (List.nodup_cons.mp hnd).1
    have hstep : dictUpdate inst (p :: rest) = dictUpdate (dset inst p.1 p.2) rest := rfl
    rw [hstep, ih _ hnd', hasKey_cons, dget_cons]
    by_cases hk : p.1 = k
    · subst hk
      have hrest : hasKey rest p.1 = false := by
        simp only [hasKey, List.any_eq_false, beq_eq_false_iff_ne, ne_eq]
        intro q hq heq
        exact hnotin (List.mem_map.mpr ⟨q, hq, by simpa using heq⟩)
      simp [hrest, dget_dset_same]
    · by_cases hr : hasKey rest k
      · simp [hr, hk, Bool.or_eq_true]
      · simp [hr, hk, dget_dset_other _ _ _ _ hk]

lemma tracked_append {regs : List Dict} {aid : PyVal} (t : List Dict)
    (h : tracked regs aid = true) : tracked (regs ++ t) aid = true := by
  simp only [tracked, List.any_append, Bool.or_eq_true]
  exact Or.inl h

lemma dget_discovered (p : String) (md : Dict) :
    dget (discovered_record p md) "app_id" = dget md "app_id" := by
  simp [discovered_record, dget_cons]

/-!  ## Claims C10, C6, C3, C5  -/

/-- **C10** (confirmed).  `cleanup_orphaned_markers` never modifies the
registry: for every registry state, disk state and deletion outcome, the list
of installation records after the call is exactly the list before it; only
marker files on disk are affected.  (In the source the method only reads
`self.installations`; the embedding threads the record list through the
operation unchanged.) -/
theorem c10_cleanup_registry_frame (regs : List Dict) (markers : List Marker)
    (delOk : String → Bool) :
    (cleanup_orphaned_markers regs markers delOk).installations = regs := rfl

/-- **C6** (confirmed).  `cleanup_orphaned_markers` never deletes a marker
whose `app_id` matches some registry record: every readable marker whose
`app_id` is tracked is still on disk after the operation. -/
theorem c6_cleanup_preserves_tracked (regs : List Dict) (markers : List Marker)
    (delOk : String → Bool) (m : Marker) (md : Dict)
    (hm : m ∈ markers) (hc : m.content = some md)
    (ht : tracked regs (dget md "app_id") = true) :
    m ∈ (cleanup_orphaned_markers regs markers delOk).disk := by
  have horph : isOrphan regs m = false := by simp [isOrphan, hc, ht]
  simp only [cleanup_orphaned_markers, List.mem_filter]
  exact ⟨hm, by simp [horph]⟩

/-- Witness for C6 at a concrete registry and disk state. -/
theorem c6_cleanup_preserves_tracked_witness :
    (⟨"/h/m1", some [("app_id", PyVal.vstr "a")]⟩ : Marker) ∈
      (cleanup_orphaned_markers [[("app_id", PyVal.vstr "a")]]
        [⟨"/h/m1", some [("app_id", PyVal.vstr "a")]⟩,
         ⟨"/h/m2", some [("app_id", PyVal.vstr "b")]⟩]
        (fun _ => true)).disk :=
  c6_cleanup_preserves_tracked _ _ _ _ [("app_id", PyVal.vstr "a")]
    (by decide) rfl (by decide)

/-- **C3** (counterexample).  With one tracked marker and one orphan marker on
disk and deletion succeeding, `cleanup_orphaned_markers` deletes exactly the
orphan but returns the pair `(1, 1)`: the first component counts only the
orphaned markers collected, not all markers found, so the claimed return value
`(found = 2, removed = 1)` is wrong. -/
theorem c3_counterexample :
    (cleanup_orphaned_markers [[("app_id", PyVal.vstr "a")]]
        [⟨"/h/m1", some [("app_id", PyVal.vstr "a")]⟩,
         ⟨"/h/m2", some [("app_id", PyVal.vstr "b")]⟩]
        (fun _ => true)) =
      { installations := [[("app_id", PyVal.vstr "a")]],
        disk := [⟨"/h/m1", some [("app_id", PyVal.vstr "a")]⟩],
        found := 1, removed := 1 } ∧
    (cleanup_orphaned_markers [[("app_id", PyVal.vstr "a")]]
        [⟨"/h/m1", some [("app_id", PyVal.vstr "a")]⟩,
         ⟨"/h/m2", some [("app_id", PyVal.vstr "b")]⟩]
        (fun _ => true)).found ≠ 2 := by
  constructor
  · rfl
  · decide

/-- **C3 amended**.  When the filesystem holds exactly two readable marker
files, one tracked and one orphan, and deletion of the orphan succeeds,
`cleanup_orphaned_markers` deletes exactly the orphan marker and returns the
pair `(found = 1, removed = 1)`: the first component counts the orphaned
markers found (tracked markers are not counted) and the second the markers
successfully removed. -/
theorem c3_amended_cleanup_counts (regs : List Dict) (m1 m2 : Marker)
    (delOk : String → Bool) (md1 md2 : Dict)
    (h1 : m1.content = some md1) (h2 : m2.content = some md2)
    (ht1 : tracked regs (dget md1 "app_id") = true)
    (ht2 : tracked regs (dget md2 "app_id") = false)
    (hd : delOk m2.path = true) :
    cleanup_orphaned_markers regs [m1, m2] delOk =
      { installations := regs, disk := [m1], found := 1, removed := 1 } := by
  have ho1 : isOrphan regs m1 = false := by simp [isOrphan, h1, ht1]
  have ho2 : isOrphan regs m2 = true := by simp [isOrphan, h2, ht2]
  simp [cleanup_orphaned_markers, ho1, ho2, hd, List.filter]

/-- Witness for the amended C3 at a concrete registry and disk state. -/
theorem c3_amended_cleanup_counts_witness :
    cleanup_orphaned_markers [[("app_id", PyVal.vstr "a")]]
        [⟨"/h/m1", some [("app_id", PyVal.vstr "a")]⟩,
         ⟨"/h/m2", some [("app_id", PyVal.vstr "b")]⟩]
        (fun _ => true) =
      { installations := [[("app_id", PyVal.vstr "a")]],
        disk := [⟨"/h/m1", some [("app_id", PyVal.vstr "a")]⟩],
        found := 1, removed := 1 } :=
  c3_amended_cleanup_counts _ _ _ _ [("app_id", PyVal.vstr "a")] [("app_id", PyVal.vstr "b")]
    rfl rfl (by decide) (by decide) rfl

/-- **C5** (confirmed).  Registry add is an upsert keyed on `app_id`:
(1) when some record matches the new `app_id`, the first such record is
merged in place and the record count is unchanged; (2) when no record
matches, the record is appended; (3) merging writes every key of the new
data over the old record and keeps the remaining old keys; (4) adding
`app_id = x, app_name = A` and then `app_id = x, app_name = B` to an empty
registry yields exactly one record, with `app_name = B`. -/
theorem c5_add_upsert :
    (∀ (data : Dict) (l1 : List Dict) (inst : Dict) (l2 : List Dict),
      (∀ y ∈ l1, dget y "app_id" ≠ dget data "app_id") →
      dget inst "app_id" = dget data "app_id" →
      add_installation (l1 ++ inst :: l2) data = l1 ++ dictUpdate inst data :: l2 ∧
      (add_installation (l1 ++ inst :: l2) data).length = (l1 ++ inst :: l2).length) ∧
    (∀ (regs : List Dict) (data : Dict),
      (∀ inst ∈ regs, dget inst "app_id" ≠ dget data "app_id") →
      add_installation regs data = regs ++ [data]) ∧
    (∀ (inst data : Dict) (k : String), (data.map Prod.fst).Nodup →
      dget (dictUpdate inst data) k =
        if hasKey data k then dget data k else dget inst k) ∧
    (add_installation
        (add_installation [] [("app_id", PyVal.vstr "x"), ("app_name", PyVal.vstr "A")])
        [("app_id", PyVal.vstr "x"), ("app_name", PyVal.vstr "B")] =
      [[("app_id", PyVal.vstr "x"), ("app_name", PyVal.vstr "B")]]) := by
  refine ⟨?_, ?_, fun inst data k hnd => dget_dictUpdate inst data k hnd, by decide⟩
  · intro data l1 inst l2 hl1 hinst
    have key : add_installation (l1 ++ inst :: l2) data = l1 ++ dictUpdate inst data :: l2 := by
      induction l1 with
      | nil => simp [add_installation, hinst]
      | cons y ys ih =>
        have hy : dget y "app_id" ≠ dget data "app_id" := hl1 y (List.mem_cons_self _ _)
        have hstep : add_installation ((y :: ys) ++ inst :: l2) data
            = y :: add_installation (ys ++ inst :: l2) data := by
          simp [add_installation, hy]
        rw [hstep, ih (fun z hz => hl1 z (List.mem_cons_of_mem _ hz))]
        rfl
    exact ⟨key, by rw [key]; simp⟩
  · intro regs data hall
    induction regs with
    | nil => simp [add_installation]
    | cons y ys ih =>
      have hy : dget y "app_id" ≠ dget data "app_id" := hall y (List.mem_cons_self _ _)
      have hstep : add_installation (y :: ys) data = y :: add_installation ys data := by
        simp [add_installation, hy]
      rw [hstep, ih (fun z hz => hall z (List.mem_cons_of_mem _ hz))]
      rfl

/-- Witness for C5: the upsert branch applied at a concrete one-record
registry. -/
theorem c5_add_upsert_witness :
    add_installation [[("app_id", PyVal.vstr "x"), ("app_name", PyVal.vstr "A")]]
        [("app_id", PyVal.vstr "x"), ("app_name", PyVal.vstr "B")] =
      [dictUpdate [("app_id", PyVal.vstr "x"), ("app_name", PyVal.vstr "A")]
        [("app_id", PyVal.vstr "x"), ("app_name", PyVal.vstr "B")]] :=
  (c5_add_upsert.1 [("app_id", PyVal.vstr "x"), ("app_name", PyVal.vstr "B")] []
    [("app_id", PyVal.vstr "x"), ("app_name", PyVal.vstr "A")] []
    (by simp) (by decide)).1

/-!  ## Claim C4: the reconciliation scan only appends  -/

lemma scan_append_only : ∀ (ms : List Marker) (regs : List Dict),
    ∃ t, scan_existing_installations regs ms = regs ++ t := by
  intro ms
  induction ms with
  | nil => exact fun regs => ⟨[], by simp [scan_existing_installations]⟩
  | cons m rest ih =>
    intro regs
    cases hc : m.content with
    | none =>
      obtain ⟨t, ht⟩ := ih regs
      exact ⟨t, by simp [scan_existing_installations, hc, ht]⟩
    | some md =>
      by_cases htr : tracked regs (dget md "app_id") = true
      · obtain ⟨t, ht⟩ := ih regs
        exact ⟨t, by simp [scan_existing_installations, hc, htr, ht]⟩
      · obtain ⟨t, ht⟩ := ih (regs ++ [discovered_record m.path md])
        refine ⟨discovered_record m.path md :: t, ?_⟩
        simp only [scan_existing_installations, hc, htr, if_false, ht]
        simp

lemma scan_covers : ∀ (ms : List Marker) (regs : List Dict) (m : Marker) (md : Dict),
    m ∈ ms → m.content = some md →
    tracked (scan_existing_installations regs ms) (dget md "app_id") = true := by
  intro ms
  induction ms with
  | nil => intro regs m md hm; cases hm
  | cons m0 rest ih =>
    intro regs m md hm hc
    rcases List.mem_cons.mp hm with rfl | hm'
    · by_cases htr : tracked regs (dget md "app_id") = true
      · have hstep : scan_existing_installations regs (m :: rest)
            = scan_existing_installations regs rest := by
          simp [scan_existing_installations, hc, htr]
        obtain ⟨t, ht⟩ := scan_append_only rest regs
        rw [hstep, ht]
        exact tracked_append t htr
      · have hstep : scan_existing_installations regs (m :: rest)
            = scan_existing_installations (regs ++ [discovered_record m.path md]) rest := by
          simp [scan_existing_installations, hc, htr]
        obtain ⟨t, ht⟩ := scan_append_only rest (regs ++ [discovered_record m.path md])
        rw [hstep, ht]
        have hbase : tracked (regs ++ [discovered_record m.path md]) (dget md "app_id") = true := by
          simp [tracked, List.any_append, dget_discovered]
        exact tracked_append t hbase
    · cases hc0 : m0.content with
      | none =>
        have hstep : scan_existing_installations regs (m0 :: rest)
            = scan_existing_installations regs rest := by
          simp [scan_existing_installations, hc0]
        rw [hstep]; exact ih regs m md hm' hc
      | some md0 =>
        by_cases htr : tracked regs (dget md0 "app_id") = true
        · have hstep : scan_existing_installations regs (m0 :: rest)
              = scan_existing_installations regs rest := by
            simp [scan_existing_installations, hc0, htr]
          rw [hstep]; exact ih regs m md hm' hc
        · have hstep : scan_existing_installations regs (m0 :: rest)
              = scan_existing_installations (regs ++ [discovered_record m0.path md0]) rest := by
            simp [scan_existing_installations, hc0, htr]
          rw [hstep]; exact ih _ m md hm' hc

lemma scan_no_new : ∀ (ms : List Marker) (regs : List Dict),
    (∀ m ∈ ms, ∀ md, m.content = some md → tracked regs (dget md "app_id") = true) →
    scan_existing_installations regs ms = regs := by
  intro ms
  induction ms with
  | nil => intro regs _; rfl
  | cons m0 rest ih =>
    intro regs hall
    cases hc0 : m0.content with
    | none =>
      have := ih regs (fun m hm md hc => hall m (List.mem_cons_of_mem _ hm) md hc)
      simp [scan_existing_installations, hc0, this]
    | some md0 =>
      have htr : tracked regs (dget md0 "app_id") = true :=
        hall m0 (List.mem_cons_self _ _) md0 hc0
      have := ih regs (fun m hm md hc => hall m (List.mem_cons_of_mem _ hm) md hc)
      simp [scan_existing_installations, hc0, htr, this]

/-- No duplicate `app_id` values among the registry records. -/
abbrev idNodup (regs : List Dict) : Prop :=
  (regs.map (fun inst => dget inst "app_id")).Nodup

lemma scan_idNodup : ∀ (ms : List Marker) (regs : List Dict),
    idNodup regs → idNodup (scan_existing_installations regs ms) := by
  intro ms
  induction ms with
  | nil => intro regs h; exact h
  | cons m0 rest ih =>
    intro regs h
    cases hc0 : m0.content with
    | none => simpa [scan_existing_installations, hc0] using ih regs h
    | some md0 =>
      by_cases htr : tracked regs (dget md0 "app_id") = true
      · simpa [scan_existing_installations, hc0, htr] using ih regs h
      · have hnew : idNodup (regs ++ [discovered_record m0.path md0]) := by
          simp only [idNodup, List.map_append, List.map_cons, List.map_nil]
          rw [List.nodup_append]
          refine ⟨h, List.nodup_singleton _, ?_⟩
          intro a ha hb
          simp only [dget_discovered, List.mem_singleton] at hb
          subst hb
          obtain ⟨inst, hinst, heq⟩ := List.mem_map.mp ha
          have : tracked regs (dget md0 "app_id") = true := by
            simp only [tracked, List.any_eq_true, beq_iff_eq]
            exact ⟨inst, hinst, heq⟩
          exact htr this
        have hstep : scan_existing_installations regs (m0 :: rest)
            = scan_existing_installations (regs ++ [discovered_record m0.path md0]) rest := by
          simp [scan_existing_installations, hc0, htr]
        rw [hstep]
        exact ih _ hnew

/-- **C4** (confirmed).  The reconciliation scan only appends records:
(1) every record present before the scan is still present, unmodified and in
place, afterwards (the result extends the input registry); (2) a marker whose
`app_id` is already tracked adds nothing; (3) running the scan a second time
against unchanged disk state leaves the record list identical; (4) the scan
never introduces a duplicate `app_id`. -/
theorem c4_scan_append_only :
    (∀ (regs : List Dict) (ms : List Marker),
      ∃ t, scan_existing_installations regs ms = regs ++ t) ∧
    (∀ (regs : List Dict) (m : Marker) (ms : List Marker) (md : Dict),
      m.content = some md → tracked regs (dget md "app_id") = true →
      scan_existing_installations regs (m :: ms) = scan_existing_installations regs ms) ∧
    (∀ (regs : List Dict) (ms : List Marker),
      scan_existing_installations (scan_existing_installations regs ms) ms =
        scan_existing_installations regs ms) ∧
    (∀ (regs : List Dict) (ms : List Marker),
      idNodup regs → idNodup (scan_existing_installations regs ms)) := by
  refine ⟨fun regs ms => scan_append_only ms regs, ?_, ?_, fun regs ms => scan_idNodup ms regs⟩
  · intro regs m ms md hc htr
    simp [scan_existing_installations, hc, htr]
  · intro regs ms
    exact scan_no_new ms _ (fun m hm md hc => scan_covers ms regs m md hm hc)

/-- Witness for C4 at a concrete registry and disk state: a tracked marker is
skipped, and rescanning after a discovery changes nothing. -/
theorem c4_scan_append_only_witness :
    scan_existing_installations [[("app_id", PyVal.vstr "a")]]
        [⟨"/h/m1", some [("app_id", PyVal.vstr "a")]⟩, ⟨"/h/m2", some [("app_id", PyVal.vstr "b")]⟩]
      = scan_existing_installations [[("app_id", PyVal.vstr "a")]]
        [⟨"/h/m2", some [("app_id", PyVal.vstr "b")]⟩] ∧
    idNodup (scan_existing_installations [[("app_id", PyVal.vstr "a")]]
        [⟨"/h/m2", some [("app_id", PyVal.vstr "b")]⟩]) :=
  ⟨c4_scan_append_only.2.1 [[("app_id", PyVal.vstr "a")]]
      ⟨"/h/m1", some [("app_id", PyVal.vstr "a")]⟩
      [⟨"/h/m2", some [("app_id", PyVal.vstr "b")]⟩]
      [("app_id", PyVal.vstr "a")] rfl (by decide),
   c4_scan_append_only.2.2.2 [[("app_id", PyVal.vstr "a")]]
      [⟨"/h/m2", some [("app_id", PyVal.vstr "b")]⟩] (by decide)⟩

/-!  ## Claim C1: the scoring formula  -/

/-- Modelled from the words of the claim: the path contains a `bin`
*directory segment*, i.e. one of the `/`-separated components other than the
final (file-name) component equals `bin`. -/
def has_bin_dir_segment (p : String) : Bool :=
  ((splitChar '/' p.data).dropLast).any (fun seg => seg == "bin".data)

/-- The score as the claim states it: the sum of five independent terms,
with the first awarded for a `bin` directory segment. -/
def spec_score_claimed (b : String) : Int :=
  (if has_bin_dir_segment b then 10 else 0) +
  (if !(hasChar (pyBasename b) '.') then 8 else 0) +
  (if pyEndsWith (pyBasename b) ".sh" || pyEndsWith (pyBasename b) ".py" ||
      pyEndsWith (pyBasename b) ".pl" then 3 else 0) +
  (if mainNames.any (fun n => pyIn n (pyLower (pyBasename b))) then 5 else 0) +
  (if pyIn "uninstall" (pyLower (pyBasename b)) || pyIn "remove" (pyLower (pyBasename b))
    then -3 else 0)

/-- The score as the code computes it, written as the same sum of five
independent terms but with the first term awarded whenever the lowercased
*full path* contains the substring `bin` (not only a `bin` directory
segment). -/
def amended_score (b : String) : Int :=
  (if pyIn "bin" (pyLower b) then 10 else 0) +
  (if !(hasChar (pyBasename b) '.') then 8 else 0) +
  (if pyEndsWith (pyBasename b) ".sh" || pyEndsWith (pyBasename b) ".py" ||
      pyEndsWith (pyBasename b) ".pl" then 3 else 0) +
  (if mainNames.any (fun n => pyIn n (pyLower (pyBasename b))) then 5 else 0) +
  (if pyIn "uninstall" (pyLower (pyBasename b)) || pyIn "remove" (pyLower (pyBasename b))
    then -3 else 0)

/-- **C1** (counterexample).  The candidate `/tmp/robbins` has no `bin`
directory segment, so the claimed formula gives `8` (no-extension only), but
the code tests `bin in binary.lower()` — a substring test over the whole
path, which `robbins` passes — and computes `18`. -/
theorem c1_counterexample :
    scoreOf "/tmp/robbins" = 18 ∧ spec_score_claimed "/tmp/robbins" = 8 ∧
    scoreOf "/tmp/robbins" ≠ spec_score_claimed "/tmp/robbins" := by
  refine ⟨by decide, by decide, by decide⟩

/-- **C1 amended**.  For every candidate binary evaluated by the scoring
step, the computed score equals exactly the sum of: +10 if the lowercased
full path contains the substring `bin`; +8 if the basename contains no dot;
+3 if it ends in `.sh`, `.py` or `.pl`; +5 if its lowercase basename contains
one of `app`, `main`, `run`, `start`, `launch` (awarded at most once); and
−3 if its lowercase basename contains `uninstall` or `remove`; no other term
contributes. -/
theorem c1_amended_score (b : String) : scoreOf b = amended_score b := by
  have hsh : (pyEndsWith (pyBasename b) ".sh" || pyEndsWith (pyBasename b) ".py" ||
      pyEndsWith (pyBasename b) ".pl") = true → hasChar (pyBasename b) '.' = true :=
    script_ext_has_dot
  simp only [scoreOf, amended_score]
  cases hdot : hasChar (pyBasename b) '.' with
  | true =>
    simp only [hdot, Bool.not_true, if_false, Bool.false_eq_true]
    split_ifs <;> decide
  | false =>
    have hscr : (pyEndsWith (pyBasename b) ".sh" || pyEndsWith (pyBasename b) ".py" ||
        pyEndsWith (pyBasename b) ".pl") = false := by
      cases hx : (pyEndsWith (pyBasename b) ".sh" || pyEndsWith (pyBasename b) ".py" ||
          pyEndsWith (pyBasename b) ".pl") with
      | true => rw [hsh hx] at hdot; cases hdot
      | false => rfl
    simp only [hdot, hscr, Bool.not_false, if_true, Bool.false_eq_true, if_false]
    split_ifs <;> decide

/-!  ## Claim C8: the canonical `/bin/app` example  -/

lemma pyIn_bin_of_slash (p : String) (h : pyIn "/bin/" p = true) :
    pyIn "bin" (pyLower p) = true := by
  simp only [pyIn] at h ⊢
  obtain ⟨u, v, huv⟩ := chSub_exists.mp h
  apply chSub_exists.mpr
  refine ⟨u.map Char.toLower ++ ['/'], '/' :: v.map Char.toLower, ?_⟩
  have hdata : (pyLower p).data = p.data.map Char.toLower := rfl
  have hlit : ("/bin/".data).map Char.toLower = '/' :: ('b' :: 'i' :: 'n' :: ['/']) := by decide
  have hbin : "bin".data = ['b', 'i', 'n'] := by decide
  rw [hdata, huv]
  simp [List.map_append, hlit, hbin]

/-- **C8** (confirmed).  A candidate whose basename is exactly `app` and whose
path contains the segment `/bin/` scores exactly 23
(10 bin + 8 no extension + 5 name match). -/
theorem c8_bin_app_scores_23 (p : String) (hb : pyBasename p = "app")
    (hs : pyIn "/bin/" p = true) : scoreOf p = 23 := by
  have h1 : pyIn "bin" (pyLower p) = true := pyIn_bin_of_slash p hs
  have h2 : hasChar "app" '.' = false := by decide
  have h3 : mainNames.any (fun n => pyIn n (pyLower "app")) = true := by decide
  have h4 : (pyIn "uninstall" (pyLower "app") || pyIn "remove" (pyLower "app")) = false := by
    decide
  simp only [scoreOf, hb, h1, h2, h3, h4, Bool.not_false, if_true, if_false,
    Bool.false_eq_true]
  decide

/-- Witness for C8 at the concrete path `/opt/foo/bin/app`. -/
theorem c8_bin_app_scores_23_witness : scoreOf "/opt/foo/bin/app" = 23 :=
  c8_bin_app_scores_23 "/opt/foo/bin/app" (by decide) (by decide)

/-!  ## Claims C2 and C9: the desktop-file step of `identify_main_binary`  -/

lemma find?_first {α : Type} (p : α → Bool) :
    ∀ (l : List α) (b : α), l.find? p = some b →
      ∃ l1 l2, l = l1 ++ b :: l2 ∧ ∀ a ∈ l1, p a = false := by
  intro l
  induction l with
  | nil => intro b h; cases h
  | cons x xs ih =>
    intro b h
    cases hx : p x with
    | true =>
      rw [List.find?_cons_of_pos _ hx] at h
      injection h with h
      exact ⟨[], xs, by simp [h], by intro a ha; cases ha⟩
    | false =>
      rw [List.find?_cons_of_neg _ (by simp [hx])] at h
      obtain ⟨l1, l2, hdec, hall⟩ := ih b h
      refine ⟨x :: l1, l2, by rw [hdec]; rfl, ?_⟩
      intro a ha
      rcases List.mem_cons.mp ha with rfl | ha'
      · exact hx
      · exact hall a ha'

/-- Computation shape of `identify_main_binary` on a nonempty binary list and
a nonempty desktop-file list: only the FIRST desktop file is consulted. -/
lemma identify_cons_desk (binaries : List String) (d : Option String)
    (rest : List (Option String)) (hne : binaries ≠ []) :
    identify_main_binary binaries (d :: rest) =
      (if desk_exec d = "" then Except.ok (selectByScore binaries)
       else
        match exec_token (desk_exec d) with
        | none => Except.error ()
        | some t =>
          match binaries.find? (fun b => pyBasename b == pyBasename t) with
          | some b => Except.ok (some b)
          | none => Except.ok (selectByScore binaries)) := by
  simp only [identify_main_binary, if_neg hne]
  by_cases he : desk_exec d = ""
  · simp [he]
  · simp only [if_neg he]
    cases htok : exec_token (desk_exec d) with
    | none => simp [htok]
    | some t =>
      cases hfind : binaries.find? (fun b => pyBasename b == pyBasename t) with
      | none => simp [htok, hfind]
      | some b => simp [htok, hfind]

lemma identify_nil_desk (binaries : List String) (hne : binaries ≠ []) :
    identify_main_binary binaries [] = Except.ok (selectByScore binaries) := by
  simp [identify_main_binary, hne]

/-- **C2** (counterexample).  With candidates `/x/binapp` and `/x/myapp` and a
first desktop file whose Exec value is `myapp<TAB>-f` — non-empty, first
whitespace-separated token `myapp`, whose basename equals the basename of the
candidate `/x/myapp` — the code does not return `/x/myapp`: the value
contains no space character, so the whole value (basename `myapp\t-f`)
is compared, no candidate matches, and scoring selects `/x/binapp`
instead. -/
theorem c2_counterexample :
    pySplitWs "myapp\t-f" = ["myapp", "-f"] ∧
    pyBasename "myapp" = pyBasename "/x/myapp" ∧
    desk_exec (some "[Desktop Entry]\nExec=myapp\t-f") = "myapp\t-f" ∧
    identify_main_binary ["/x/binapp", "/x/myapp"]
        [some "[Desktop Entry]\nExec=myapp\t-f"] =
      Except.ok (some "/x/binapp") := by
  exact ⟨by decide, by decide, by decide, rfl⟩

/-- **C2 amended**.  For every non-empty candidate list and non-empty desktop
list, if the first desktop file parses with a non-empty Exec value and the
token the code extracts from it — the first whitespace-separated token when
the value contains a space character, otherwise the entire value — has a
basename equal to the basename of some candidate, then `identify_main_binary`
returns the first such candidate immediately, with no condition on the
heuristic scores of the other candidates. -/
theorem c2_desktop_match_wins (binaries : List String) (d : Option String)
    (rest : List (Option String)) (t : String)
    (hne : binaries ≠ [])
    (he : desk_exec d ≠ "")
    (htok : exec_token (desk_exec d) = some t)
    (hmatch : ∃ b0 ∈ binaries, pyBasename b0 = pyBasename t) :
    ∃ b l1 l2, identify_main_binary binaries (d :: rest) = Except.ok (some b) ∧
      binaries = l1 ++ b :: l2 ∧ pyBasename b = pyBasename t ∧
      ∀ a ∈ l1, pyBasename a ≠ pyBasename t := by
  have hsome : (binaries.find? (fun b => pyBasename b == pyBasename t)).isSome := by
    rw [List.find?_isSome]
    obtain ⟨b0, hb0, hbeq⟩ := hmatch
    exact ⟨b0, hb0, by simpa using hbeq⟩
  obtain ⟨b, hfind⟩ := Option.isSome_iff_exists.mp hsome
  obtain ⟨l1, l2, hdec, hall⟩ := find?_first _ binaries b hfind
  have hpb : pyBasename b = pyBasename t := by simpa using List.find?_some hfind
  refine ⟨b, l1, l2, ?_, hdec, hpb, ?_⟩
  · rw [identify_cons_desk binaries d rest hne]
    simp [he, htok, hfind]
  · intro a ha
    simpa using hall a ha

/-- Witness for the amended C2: `Exec=myapp -f` (with a space) selects
`/x/myapp` over the higher-scoring `/x/binapp`. -/
theorem c2_desktop_match_wins_witness :
    identify_main_binary ["/x/binapp", "/x/myapp"]
        [some "[Desktop Entry]\nExec=myapp -f"] =
      Except.ok (some "/x/myapp") := by
  obtain ⟨b, l1, l2, h1, hdec, hpb, hall⟩ :=
    c2_desktop_match_wins ["/x/binapp", "/x/myapp"]
      (some "[Desktop Entry]\nExec=myapp -f") [] "myapp"
      (by decide) (by decide) (by decide) ⟨"/x/myapp", by decide, by decide⟩
  have hbmem : b ∈ ["/x/binapp", "/x/myapp"] := by
    rw [hdec]; simp
  have hb : b = "/x/myapp" := by
    simp only [List.mem_cons, List.not_mem_nil, or_false] at hbmem
    rcases hbmem with rfl | rfl
    · exact absurd hpb (by decide)
    · rfl
  rw [h1, hb]

/-- **C9** (confirmed).  Only the first desktop file is consulted: whenever
the first desktop file falls through (empty, missing or unparsable Exec, or
an extracted token whose basename matches no candidate), selection goes to
heuristic scoring, whatever the later desktop files contain. -/
theorem c9_only_first_desktop (binaries : List String) (d : Option String)
    (rest rest2 : List (Option String))
    (hne : binaries ≠ [])
    (hfall : desk_exec d = "" ∨
      ∃ t, exec_token (desk_exec d) = some t ∧
        ∀ b ∈ binaries, pyBasename b ≠ pyBasename t) :
    identify_main_binary binaries (d :: rest) = Except.ok (selectByScore binaries) ∧
    identify_main_binary binaries (d :: rest) = identify_main_binary binaries (d :: rest2) := by
  have key : ∀ r : List (Option String),
      identify_main_binary binaries (d :: r) = Except.ok (selectByScore binaries) := by
    intro r
    rw [identify_cons_desk binaries d r hne]
    rcases hfall with he | ⟨t, htok, hnb⟩
    · simp [he]
    · have hfind : binaries.find? (fun b => pyBasename b == pyBasename t) = none := by
        rw [List.find?_eq_none]
        intro a ha
        simpa using hnb a ha
      by_cases he : desk_exec d = ""
      · simp [he]
      · simp [he, htok, hfind]
  exact ⟨key rest, (key rest).trans (key rest2).symm⟩

/-- Witness for C9: a first desktop file with no Exec key makes the result
scoring-based and insensitive to a later desktop file whose Exec would
match a candidate. -/
theorem c9_only_first_desktop_witness :
    identify_main_binary ["/x/binapp", "/x/myapp"] [some "[Desktop Entry]\nName=foo"] =
      Except.ok (selectByScore ["/x/binapp", "/x/myapp"]) ∧
    identify_main_binary ["/x/binapp", "/x/myapp"] [some "[Desktop Entry]\nName=foo"] =
      identify_main_binary ["/x/binapp", "/x/myapp"]
        [some "[Desktop Entry]\nName=foo", some "[Desktop Entry]\nExec=myapp"] :=
  c9_only_first_desktop ["/x/binapp", "/x/myapp"] (some "[Desktop Entry]\nName=foo")
    [] [some "[Desktop Entry]\nExec=myapp"] (by decide) (Or.inl (by decide))

/-!  ## Claim C7: the scoring sort is stable and the head is the first
maximum  -/

lemma sortDesc_head : ∀ (bs : List String), bs ≠ [] →
    ∃ p l1 l2, (sortDesc (scored_list bs)).head? = some p ∧
      bs = l1 ++ p.1 :: l2 ∧ p.2 = scoreOf p.1 ∧
      (∀ a ∈ l1, scoreOf a < p.2) ∧ (∀ a ∈ bs, scoreOf a ≤ p.2) := by
  intro bs
  induction bs with
  | nil => intro h; cases h rfl
  | cons x xs ih =>
    intro _
    cases hxs : xs with
    | nil =>
      subst hxs
      refine ⟨(x, scoreOf x), [], [], rfl, by simp, rfl, by simp, ?_⟩
      intro a ha
      rcases List.mem_singleton.mp ha with rfl
      exact le_refl _
    | cons y ys =>
      subst hxs
      obtain ⟨p, l1, l2, hhead, hdec, hps, hlt, hle⟩ := ih (by simp)
      obtain ⟨tail, htail⟩ : ∃ tail, sortDesc (scored_list (y :: ys)) = p :: tail := by
        cases hs : sortDesc (scored_list (y :: ys)) with
        | nil => rw [hs] at hhead; cases hhead
        | cons q tq =>
          rw [hs] at hhead
          simp only [List.head?_cons, Option.some.injEq] at hhead
          exact ⟨tq, by rw [hhead]⟩
      have hstep : sortDesc (scored_list (x :: y :: ys)) =
          insDesc (x, scoreOf x) (sortDesc (scored_list (y :: ys))) := rfl
      by_cases hcmp : scoreOf x < p.2
      · refine ⟨p, x :: l1, l2, ?_, by rw [List.cons_append, ← hdec], hps, ?_, ?_⟩
        · rw [hstep, htail]
          simp [insDesc, hcmp]
        · intro a ha
          rcases List.mem_cons.mp ha with rfl | ha'
          · exact hcmp
          · exact hlt a ha'
        · intro a ha
          rcases List.mem_cons.mp ha with rfl | ha'
          · exact le_of_lt hcmp
          · exact hle a ha'
      · refine ⟨(x, scoreOf x), [], y :: ys, ?_, rfl, rfl, by simp, ?_⟩
        · rw [hstep, htail]
          simp [insDesc, hcmp]
        · intro a ha
          rcases List.mem_cons.mp ha with rfl | ha'
          · exact le_refl _
          · exact (hle a ha').trans (not_lt.mp hcmp)

/-- **C7** (confirmed).  In the scoring step (no desktop file), the returned
main binary is the earliest-discovered candidate among those achieving the
maximum score: every earlier candidate scores strictly lower, every candidate
scores no higher.  This is exactly the head of the stable descending sort. -/
theorem c7_scoring_first_max (binaries : List String) (hne : binaries ≠ []) :
    ∃ b l1 l2, identify_main_binary binaries [] = Except.ok (some b) ∧
      selectByScore binaries = some b ∧ binaries = l1 ++ b :: l2 ∧
      (∀ a ∈ l1, scoreOf a < scoreOf b) ∧ (∀ a ∈ binaries, scoreOf a ≤ scoreOf b) := by
  obtain ⟨p, l1, l2, hhead, hdec, hps, hlt, hle⟩ := sortDesc_head binaries hne
  have hsel : selectByScore binaries = some p.1 := by
    unfold selectByScore
    cases hs : sortDesc (scored_list binaries) with
    | nil => rw [hs] at hhead; cases hhead
    | cons q tq =>
      rw [hs] at hhead
      simp only [List.head?_cons, Option.some.injEq] at hhead
      rw [hhead]
  refine ⟨p.1, l1, l2, ?_, hsel, hdec, ?_, ?_⟩
  · rw [identify_nil_desk binaries hne, hsel]
  · intro a ha; rw [← hps]; exact hlt a ha
  · intro a ha; rw [← hps]; exact hle a ha

/-- Witness for C7 at a concrete candidate list: the earliest candidate with
the maximum score is returned. -/
theorem c7_scoring_first_max_witness :
    identify_main_binary ["/x/a.txt", "/x/binapp", "/x/main"] [] =
      Except.ok (some "/x/binapp") := by
  obtain ⟨b, l1, l2, h1, h2, _, _, _⟩ :=
    c7_scoring_first_max ["/x/a.txt", "/x/binapp", "/x/main"] (by decide)
  have h3 : selectByScore ["/x/a.txt", "/x/binapp", "/x/main"] = some "/x/binapp" := by
    decide
  rw [h2] at h3
  rw [h1, Option.some.inj h3]

end TarballInstaller
